import Mathlib

/-!
Verification of the depth-controlled recursive directory scanner
(filesindir_recursive.py) and the INI-value type-inference rule
(cfp2json.py) of the files_scanner repository.

The filesystem visible to a scan is modelled as a finite tree of entries.
A directory carries an accessibility flag: listing an inaccessible
directory fails with a permission/OS error, which the scanner swallows
(pathlib glob and rglob skip such directories silently; the bounded-depth
walker catches PermissionError and OSError around its listing loop).
Scan results are lists of paths, each path being the list of name
components below the scanned root; the last component is the name of the
matched entry.
-/

mutual
inductive Entry where
  | file (name : String)
  | dir (name : String) (accessible : Bool) (children : EntryList)
inductive EntryList where
  | nil
  | cons (head : Entry) (tail : EntryList)
end

/-- Name of a filesystem entry. -/
def Entry.name : Entry → String
  | .file n => n
  | .dir n _ _ => n

/-- Whether the entry is a directory (models pathlib Path.is_dir). -/
def Entry.isDir : Entry → Bool
  | .file _ => false
  | .dir _ _ _ => true

/-- Whether the scanned root directory itself can be listed. -/
def Entry.rootAccessible : Entry → Bool
  | .file _ => false
  | .dir _ a _ => a

/-- Convenience converter for writing concrete trees. -/
def elist : List Entry → EntryList
  | [] => .nil
  | e :: es => .cons e (elist es)

/-- Induction over Entry with an auxiliary list-level motive m. -/
theorem Entry.mutInd {motive : Entry → Prop} {m : EntryList → Prop}
    (hfile : ∀ n, motive (.file n))
    (hdir : ∀ n a cs, m cs → motive (.dir n a cs))
    (hnil : m .nil)
    (hcons : ∀ c cs, motive c → m cs → m (.cons c cs)) :
    ∀ t, motive t :=
  fun t => @Entry.rec motive m hfile hdir hnil hcons t

/-- Simultaneous induction: both the entry-level and list-level statements. -/
theorem Entry.mutIndBoth {motive : Entry → Prop} {m : EntryList → Prop}
    (hfile : ∀ n, motive (.file n))
    (hdir : ∀ n a cs, m cs → motive (.dir n a cs))
    (hnil : m .nil)
    (hcons : ∀ c cs, motive c → m cs → m (.cons c cs)) :
    (∀ t, motive t) ∧ (∀ cs, m cs) :=
  ⟨fun t => @Entry.rec motive m hfile hdir hnil hcons t,
   fun cs => @EntryList.rec motive m hfile hdir hnil hcons cs⟩

/-- List-level induction that does not look into the entries. -/
theorem EntryList.weakInd {m : EntryList → Prop}
    (hnil : m .nil)
    (hcons : ∀ c cs, m cs → m (.cons c cs)) :
    ∀ cs, m cs :=
  fun cs => @EntryList.rec (fun _ => True) m (fun _ => trivial)
    (fun _ _ _ _ => trivial) hnil (fun c cs _ ih => hcons c cs ih) cs

/-- Glob pattern star-then-extension: a name matches the pattern built by
the source as a star followed by the extension exactly when the extension
is a (case-sensitive) suffix of the name.  pathlib glob matching does not
exclude hidden names, so the whole name may equal the extension. -/
def matchesPattern (ext name : String) : Bool :=
  ext.data.isSuffixOf name.data

/-- The direct children of a listed directory whose names match the
pattern, in listing order, as paths extending the given path q
(models one level of directory.glob on an already-listed directory). -/
def matchedChildren (ext : String) (q : List String) : EntryList → List (List String)
  | .nil => []
  | .cons c cs =>
    (if matchesPattern ext c.name then [q ++ [c.name]] else [])
      ++ matchedChildren ext q cs

/-- directory.glob of star-extension: direct matching children, or nothing
when listing the directory fails (pathlib swallows the permission error). -/
def globStar (ext : String) (q : List String) : Entry → List (List String)
  | .file _ => []
  | .dir _ acc cs => if acc then matchedChildren ext q cs else []

mutual
/-- directory.rglob of star-extension: matching entries at every depth
below the directory, skipping unlistable directories silently. -/
def rglobStar (ext : String) (q : List String) : Entry → List (List String)
  | .file _ => []
  | .dir _ acc cs =>
    if acc then matchedChildren ext q cs ++ rglobList ext q cs else []

/-- rglob recursion over the children of a listed directory. -/
def rglobList (ext : String) (q : List String) : EntryList → List (List String)
  | .nil => []
  | .cons c cs => rglobStar ext (q ++ [c.name]) c ++ rglobList ext q cs
end

mutual
/-- collect_files from get_files_by_extension: collect direct matches of
the current directory, and while current_depth < max_depth recurse into
each direct subdirectory with current_depth + 1.  A directory whose
listing fails contributes nothing (the except clause swallows the error:
glob yields nothing and iterdir raises before any subdirectory is
visited). -/
def collect_files (ext : String) (max_depth : Int) (q : List String)
    (current_depth : Int) : Entry → List (List String)
  | .file _ => []
  | .dir _ acc cs =>
    if acc then
      matchedChildren ext q cs
        ++ (if current_depth < max_depth then
              collectList ext max_depth q current_depth cs
            else [])
    else []

/-- Recursion of collect_files over the children listed by iterdir. -/
def collectList (ext : String) (max_depth : Int) (q : List String)
    (current_depth : Int) : EntryList → List (List String)
  | .nil => []
  | .cons c cs =>
    (if c.isDir then
        collect_files ext max_depth (q ++ [c.name]) (current_depth + 1) c
      else [])
      ++ collectList ext max_depth q current_depth cs
end

/-- get_files_by_extension: depth 0 lists the current directory only,
depth -1 is unlimited recursion, any other depth is the bounded walk. -/
def get_files_by_extension (t : Entry) (ext : String) (depth : Int) :
    List (List String) :=
  if depth = 0 then globStar ext [] t
  else if depth = -1 then rglobStar ext [] t
  else collect_files ext depth [] 0 t

mutual
/-- Directories whose listing is attempted by the bounded walk. -/
def visitedDirs (max_depth : Int) (q : List String) (current_depth : Int) :
    Entry → List (List String)
  | .file _ => []
  | .dir _ acc cs =>
    q :: (if acc ∧ current_depth < max_depth then
            visitedList max_depth q current_depth cs
          else [])

/-- Recursion of visitedDirs over listed children. -/
def visitedList (max_depth : Int) (q : List String) (current_depth : Int) :
    EntryList → List (List String)
  | .nil => []
  | .cons c cs =>
    (if c.isDir then
        visitedDirs max_depth (q ++ [c.name]) (current_depth + 1) c
      else [])
      ++ visitedList max_depth q current_depth cs
end

mutual
/-- Directories whose listing is attempted by unlimited recursion. -/
def rvisitedDirs (q : List String) : Entry → List (List String)
  | .file _ => []
  | .dir _ acc cs => q :: (if acc then rvisitedList q cs else [])

/-- Recursion of rvisitedDirs over listed children. -/
def rvisitedList (q : List String) : EntryList → List (List String)
  | .nil => []
  | .cons c cs =>
    (if c.isDir then rvisitedDirs (q ++ [c.name]) c else [])
      ++ rvisitedList q cs
end

/-- Directories listed (or attempted) by a scan at the given depth mode. -/
def listedDirs (t : Entry) (depth : Int) : List (List String) :=
  if depth = 0 then [[]]
  else if depth = -1 then rvisitedDirs [] t
  else visitedDirs depth [] 0 t

/-- Position of the last dot in a list of characters, if any. -/
def rfindDot : List Char → Option Nat
  | [] => none
  | c :: cs =>
    match rfindDot cs with
    | some i => some (i + 1)
    | none => if c = '.' then some 0 else none

/-- pathlib Path.stem: the name up to its last dot, except that a name
whose only dot is leading, or whose last dot is final, is kept whole. -/
def pyStem (name : String) : String :=
  match rfindDot name.data with
  | some i => if 0 < i ∧ i < name.data.length - 1 then ⟨name.data.take i⟩ else name
  | none => name

/-- Last component of a result path: the matched entry's base name. -/
def lastName (p : List String) : String := p.getLastD ""

/-- The spec's stem: the base name with the matched extension suffix
removed (a pure string transform, defined from the spec's words for
comparison with the pathlib stem computed by the code). -/
def stripExt (name ext : String) : String :=
  ⟨name.data.take (name.data.length - ext.data.length)⟩

/-- Python str.lower restricted to the characters the scripts compare. -/
def pyLower (s : String) : String := ⟨s.data.map Char.toLower⟩

/-- Python str.strip: drop leading and trailing whitespace. -/
def pyStrip (s : String) : String :=
  ⟨((s.data.dropWhile Char.isWhitespace).reverse.dropWhile Char.isWhitespace).reverse⟩

/-- The fixed allow-list of recognized extensions (validate_extension). -/
def KNOWN_EXTENSIONS : List String :=
  [".txt", ".docx", ".pdf", ".py", ".md", ".csv", ".xlsx",
   ".jpg", ".png", ".gif", ".mp4", ".mp3", ".zip", ".json"]

/-- The state a single invocation observes: whether the root path exists,
whether it is a directory, and the tree below it when it is one. -/
structure World where
  rootExists : Bool
  rootIsDir : Bool
  tree : Entry

/-- Filesystem accesses an invocation performs. -/
inductive FSAccess where
  | existsCheck
  | isDirCheck
  | listDir (path : List String)
deriving DecidableEq, Repr

/-- Console diagnostics and the final report of an invocation. -/
inductive Msg where
  | dirNotExist
  | notADir
  | unknownExt (ext : String)
  | report (files_with_ext : List String) (file_stems : List String)
deriving DecidableEq, Repr

/-- Everything observable from one call of the wrapped scan. -/
structure ProcResult where
  accesses : List FSAccess
  outputs : List Msg
  found : List (List String)
deriving DecidableEq, Repr

/-- process_and_print_files with its two decorators.  validate_path is the
outermost decorator, so the existence and is-directory checks run before
validate_extension consults the allow-list; only then does the core scan
run and print the matched names and their stems. -/
def process_and_print_files (w : World) (ext : String) (depth : Int) :
    ProcResult :=
  if w.rootExists = false then
    ⟨[.existsCheck], [.dirNotExist], []⟩
  else if w.rootIsDir = false then
    ⟨[.existsCheck, .isDirCheck], [.notADir], []⟩
  else if (KNOWN_EXTENSIONS.contains (pyLower ext)) = false then
    ⟨[.existsCheck, .isDirCheck], [.unknownExt ext], []⟩
  else
    let files := get_files_by_extension w.tree ext depth
    ⟨[.existsCheck, .isDirCheck] ++ (listedDirs w.tree depth).map FSAccess.listDir,
     [.report (files.map lastName) ((files.map lastName).map pyStem)],
     files⟩

/-- JSON values produced by the INI converter.  A float records the
matched numeric literal; its numeric value is not needed here. -/
inductive JsonVal where
  | bool (b : Bool)
  | int (n : Nat)
  | float (raw : String)
  | str (s : String)
deriving DecidableEq, Repr

/-- Decimal value of a digit string, as Python int() computes it. -/
def digitsToNat (cs : List Char) : Nat :=
  cs.foldl (fun n c => 10 * n + (c.toNat - '0'.toNat)) 0

/-- Full match of the float regex: one or more digits, a dot, then zero
or more digits. -/
def isFloatShape (cs : List Char) : Bool :=
  decide (cs.takeWhile Char.isDigit ≠ []) &&
    match cs.dropWhile Char.isDigit with
    | b :: rest => b == '.' && rest.all Char.isDigit
    | [] => false

/-- infer_type from cfp2json.py: strip, then try the boolean words
case-insensitively, then a pure-digit integer, then the float shape,
otherwise keep the (stripped) string. -/
def infer_type (val : String) : JsonVal :=
  let v := pyStrip val
  let lower := pyLower v
  if lower = "true" ∨ lower = "yes" ∨ lower = "on" then .bool true
  else if lower = "false" ∨ lower = "no" ∨ lower = "off" then .bool false
  else if v.data ≠ [] ∧ v.data.all Char.isDigit then .int (digitsToNat v.data)
  else if isFloatShape v.data then .float v
  else .str v

mutual
/-- Paths of all entries strictly below the root, in listing order. -/
def entryPaths : Entry → List (List String)
  | .file _ => []
  | .dir _ _ cs => entryPathsList cs

def entryPathsList : EntryList → List (List String)
  | .nil => []
  | .cons c cs =>
    [c.name] :: ((entryPaths c).map (c.name :: ·) ++ entryPathsList cs)
end

mutual
/-- Paths of the entries every traversal can reach: each ancestor
directory on the way, the root included, is accessible. -/
def accessiblePaths : Entry → List (List String)
  | .file _ => []
  | .dir _ acc cs => if acc then accessiblePathsList cs else []

def accessiblePathsList : EntryList → List (List String)
  | .nil => []
  | .cons c cs =>
    [c.name] :: ((accessiblePaths c).map (c.name :: ·) ++ accessiblePathsList cs)
end

mutual
/-- Reachable paths that point at a directory entry. -/
def accessibleDirPaths : Entry → List (List String)
  | .file _ => []
  | .dir _ acc cs => if acc then accessibleDirPathsList cs else []

def accessibleDirPathsList : EntryList → List (List String)
  | .nil => []
  | .cons c cs =>
    (if c.isDir then [[c.name]] else [])
      ++ (accessibleDirPaths c).map (c.name :: ·)
      ++ accessibleDirPathsList cs
end

mutual
/-- Every directory of the tree is accessible. -/
def allAccessible : Entry → Bool
  | .file _ => true
  | .dir _ acc cs => acc && allAccessibleList cs

def allAccessibleList : EntryList → Bool
  | .nil => true
  | .cons c cs => allAccessible c && allAccessibleList cs
end

mutual
/-- Reachable paths whose entry name matches the extension pattern. -/
def matchingPaths (ext : String) : Entry → List (List String)
  | .file _ => []
  | .dir _ acc cs => if acc then matchingPathsList ext cs else []

def matchingPathsList (ext : String) : EntryList → List (List String)
  | .nil => []
  | .cons c cs =>
    (if matchesPattern ext c.name then [[c.name]] else [])
      ++ (matchingPaths ext c).map (c.name :: ·)
      ++ matchingPathsList ext cs
end

/-- Which nesting depths a depth argument allows: a path of length L
addresses an entry whose parent directory sits L - 1 levels below the
root.  Depth 0 allows direct children only, depth -1 allows everything,
and a bounded walk allows direct children plus entries whose parent lies
strictly within max_depth levels. -/
def depthOK (d : Int) (p : List String) : Bool :=
  if d = 0 then p.length == 1
  else if d = -1 then true
  else p.length == 1 || decide ((p.length : Int) ≤ d + 1)

theorem mem_ite_nil {α : Type} {P : Prop} [Decidable P] {x : α} {l : List α} :
    x ∈ (if P then l else []) ↔ P ∧ x ∈ l := by
  split <;> simp_all

theorem matchingPathsList_ne_nil (ext : String) :
    ∀ cs, ∀ q ∈ matchingPathsList ext cs, q ≠ [] := by
  intro cs
  induction cs using EntryList.weakInd with
  | hnil => intro q hq; simp [matchingPathsList] at hq
  | hcons c cs ih =>
    intro q hq
    rw [matchingPathsList] at hq
    rcases List.mem_append.1 hq with h | h
    · rcases List.mem_append.1 h with h | h
      · rcases mem_ite_nil.1 h with ⟨_, h⟩
        simp at h
        simp [h]
      · rcases List.mem_map.1 h with ⟨q', _, rfl⟩
        simp
    · exact ih q h

theorem accessiblePathsList_ne_nil :
    ∀ cs, ∀ q ∈ accessiblePathsList cs, q ≠ [] := by
  intro cs
  induction cs using EntryList.weakInd with
  | hnil => intro q hq; simp [accessiblePathsList] at hq
  | hcons c cs ih =>
    intro q hq
    rw [accessiblePathsList] at hq
    rcases List.mem_cons.1 hq with rfl | h
    · simp
    · rcases List.mem_append.1 h with h | h
      · rcases List.mem_map.1 h with ⟨q', _, rfl⟩
        simp
      · exact ih q h

theorem entryPathsList_ne_nil :
    ∀ cs, ∀ q ∈ entryPathsList cs, q ≠ [] := by
  intro cs
  induction cs using EntryList.weakInd with
  | hnil => intro q hq; simp [entryPathsList] at hq
  | hcons c cs ih =>
    intro q hq
    rw [entryPathsList] at hq
    rcases List.mem_cons.1 hq with rfl | h
    · simp
    · rcases List.mem_append.1 h with h | h
      · rcases List.mem_map.1 h with ⟨q', _, rfl⟩
        simp
      · exact ih q h

theorem entryPaths_ne_nil :
    ∀ t : Entry, ∀ q ∈ entryPaths t, q ≠ [] := by
  intro t q hq
  cases t with
  | file n => simp [entryPaths] at hq
  | dir n a cs =>
    rw [entryPaths] at hq
    exact entryPathsList_ne_nil cs q hq

theorem accessiblePaths_ne_nil :
    ∀ t : Entry, ∀ q ∈ accessiblePaths t, q ≠ [] := by
  intro t q hq
  cases t with
  | file n => simp [accessiblePaths] at hq
  | dir n a cs =>
    rw [accessiblePaths] at hq
    rcases mem_ite_nil.1 hq with ⟨_, hq⟩
    exact accessiblePathsList_ne_nil cs q hq

theorem matchingPaths_ne_nil (ext : String) :
    ∀ t : Entry, ∀ q ∈ matchingPaths ext t, q ≠ [] := by
  intro t q hq
  cases t with
  | file n => simp [matchingPaths] at hq
  | dir n a cs =>
    rw [matchingPaths] at hq
    rcases mem_ite_nil.1 hq with ⟨_, hq⟩
    exact matchingPathsList_ne_nil ext cs q hq

theorem lastName_singleton (a : String) : lastName [a] = a := rfl

theorem lastName_cons_of_ne_nil (a : String) {q : List String} (h : q ≠ []) :
    lastName (a :: q) = lastName q := by
  cases q with
  | nil => exact absurd rfl h
  | cons b q => simp [lastName, List.getLastD_cons]

theorem matching_iff_accessible_both (ext : String) :
    (∀ t : Entry, ∀ q, q ∈ matchingPaths ext t ↔
      q ∈ accessiblePaths t ∧ matchesPattern ext (lastName q) = true) ∧
    (∀ cs : EntryList, ∀ q, q ∈ matchingPathsList ext cs ↔
      q ∈ accessiblePathsList cs ∧ matchesPattern ext (lastName q) = true) := by
  refine Entry.mutIndBoth ?_ ?_ ?_ ?_
  · intro n q
    simp [matchingPaths, accessiblePaths]
  · intro n a cs ih q
    rw [matchingPaths, accessiblePaths]
    rcases a with _ | _
    · simp
    · simpa using ih q
  · intro q
    simp [matchingPathsList, accessiblePathsList]
  · intro c cs ihc ihcs q
    rw [matchingPathsList, accessiblePathsList]
    constructor
    · intro hq
      rcases List.mem_append.1 hq with h | h
      · rcases List.mem_append.1 h with h | h
        · rcases mem_ite_nil.1 h with ⟨hm, h⟩
          simp only [List.mem_singleton] at h
          subst h
          simp [lastName_singleton, hm]
        · rcases List.mem_map.1 h with ⟨q', hq', rfl⟩
          rcases (ihc q').1 hq' with ⟨hacc, hm⟩
          have hne : q' ≠ [] := accessiblePaths_ne_nil c q' hacc
          refine ⟨?_, ?_⟩
          · exact List.mem_cons_of_mem _ (List.mem_append.2 (Or.inl (List.mem_map.2 ⟨q', hacc, rfl⟩)))
          · rwa [lastName_cons_of_ne_nil _ hne]
      · rcases (ihcs q).1 h with ⟨hacc, hm⟩
        exact ⟨List.mem_cons_of_mem _ (List.mem_append.2 (Or.inr hacc)), hm⟩
    · rintro ⟨hq, hm⟩
      rcases List.mem_cons.1 hq with rfl | h
      · rw [lastName_singleton] at hm
        refine List.mem_append.2 (Or.inl (List.mem_append.2 (Or.inl ?_)))
        rw [if_pos hm]
        simp
      · rcases List.mem_append.1 h with h | h
        · rcases List.mem_map.1 h with ⟨q', hq', rfl⟩
          have hne : q' ≠ [] := accessiblePaths_ne_nil c q' hq'
          rw [lastName_cons_of_ne_nil _ hne] at hm
          refine List.mem_append.2 (Or.inl (List.mem_append.2 (Or.inr ?_)))
          exact List.mem_map.2 ⟨q', (ihc q').2 ⟨hq', hm⟩, rfl⟩
        · exact List.mem_append.2 (Or.inr ((ihcs q).2 ⟨h, hm⟩))

theorem mem_matchingPaths (ext : String) (t : Entry) (q : List String) :
    q ∈ matchingPaths ext t ↔
      q ∈ accessiblePaths t ∧ matchesPattern ext (lastName q) = true :=
  (matching_iff_accessible_both ext).1 t q

theorem accessible_eq_entry_both :
    (∀ t : Entry, allAccessible t = true → accessiblePaths t = entryPaths t) ∧
    (∀ cs : EntryList, allAccessibleList cs = true →
      accessiblePathsList cs = entryPathsList cs) := by
  refine Entry.mutIndBoth ?_ ?_ ?_ ?_
  · intro n _
    simp [accessiblePaths, entryPaths]
  · intro n a cs ih ha
    rw [allAccessible, Bool.and_eq_true] at ha
    obtain ⟨ha1, ha2⟩ := ha
    subst ha1
    rw [accessiblePaths, entryPaths, if_pos rfl, ih ha2]
  · intro _
    simp [accessiblePathsList, entryPathsList]
  · intro c cs ihc ihcs ha
    rw [allAccessibleList, Bool.and_eq_true] at ha
    obtain ⟨ha1, ha2⟩ := ha
    rw [accessiblePathsList, entryPathsList, ihc ha1, ihcs ha2]

theorem accessibleDirPaths_subset_both :
    (∀ t : Entry, ∀ q ∈ accessibleDirPaths t, q ∈ accessiblePaths t) ∧
    (∀ cs : EntryList, ∀ q ∈ accessibleDirPathsList cs, q ∈ accessiblePathsList cs) := by
  refine Entry.mutIndBoth ?_ ?_ ?_ ?_
  · intro n q hq
    simp [accessibleDirPaths] at hq
  · intro n a cs ih q hq
    rw [accessibleDirPaths] at hq
    rcases mem_ite_nil.1 hq with ⟨hacc, hq⟩
    rw [accessiblePaths, if_pos hacc]
    exact ih q hq
  · intro q hq
    simp [accessibleDirPathsList] at hq
  · intro c cs ihc ihcs q hq
    rw [accessibleDirPathsList] at hq
    rw [accessiblePathsList]
    rcases List.mem_append.1 hq with h | h
    · rcases List.mem_append.1 h with h | h
      · rcases mem_ite_nil.1 h with ⟨_, h⟩
        simp only [List.mem_singleton] at h
        subst h
        simp
      · rcases List.mem_map.1 h with ⟨q', hq', rfl⟩
        exact List.mem_cons_of_mem _
          (List.mem_append.2 (Or.inl (List.mem_map.2 ⟨q', ihc q' hq', rfl⟩)))
    · exact List.mem_cons_of_mem _ (List.mem_append.2 (Or.inr (ihcs q h)))

theorem singleton_matching_iff (ext : String) :
    ∀ cs : EntryList, ∀ x : String,
      [x] ∈ matchingPathsList ext cs ↔
        [x] ∈ entryPathsList cs ∧ matchesPattern ext x = true := by
  intro cs
  induction cs using EntryList.weakInd with
  | hnil => intro x; simp [matchingPathsList, entryPathsList]
  | hcons c cs ih =>
    intro x
    rw [matchingPathsList, entryPathsList]
    constructor
    · intro hq
      rcases List.mem_append.1 hq with h | h
      · rcases List.mem_append.1 h with h | h
        · rcases mem_ite_nil.1 h with ⟨hm, h⟩
          simp only [List.mem_singleton, List.cons.injEq, and_true] at h
          subst h
          simp [hm]
        · rcases List.mem_map.1 h with ⟨q', hq', heq⟩
          have hne : q' ≠ [] := matchingPaths_ne_nil ext c q' hq'
          rcases q' with _ | ⟨y, q'⟩
          · exact absurd rfl hne
          · simp at heq
      · rcases (ih x).1 h with ⟨he, hm⟩
        exact ⟨List.mem_cons_of_mem _ (List.mem_append.2 (Or.inr he)), hm⟩
    · rintro ⟨hq, hm⟩
      rcases List.mem_cons.1 hq with h | h
      · simp only [List.cons.injEq, and_true] at h
        subst h
        refine List.mem_append.2 (Or.inl (List.mem_append.2 (Or.inl ?_)))
        rw [if_pos hm]
        simp
      · rcases List.mem_append.1 h with h | h
        · rcases List.mem_map.1 h with ⟨q', hq', heq⟩
          have hne : q' ≠ [] := entryPaths_ne_nil c q' hq'
          exact absurd heq (by
            rcases q' with _ | ⟨y, q'⟩
            · exact absurd rfl hne
            · simp)
        · exact List.mem_append.2 (Or.inr ((ih x).2 ⟨h, hm⟩))

theorem mem_matchedChildren (ext : String) :
    ∀ cs : EntryList, ∀ q0 p : List String,
      p ∈ matchedChildren ext q0 cs ↔
        ∃ r, r ∈ matchingPathsList ext cs ∧ r.length = 1 ∧ p = q0 ++ r := by
  intro cs
  induction cs using EntryList.weakInd with
  | hnil => intro q0 p; simp [matchedChildren, matchingPathsList]
  | hcons c cs ih =>
    intro q0 p
    rw [matchedChildren, matchingPathsList]
    constructor
    · intro hp
      rcases List.mem_append.1 hp with h | h
      · rcases mem_ite_nil.1 h with ⟨hm, h⟩
        simp only [List.mem_singleton] at h
        refine ⟨[c.name], ?_, by simp, h⟩
        rw [if_pos hm]
        simp
      · rcases (ih q0 p).1 h with ⟨r, hr, hlen, rfl⟩
        exact ⟨r, List.mem_append.2 (Or.inr hr), hlen, rfl⟩
    · rintro ⟨r, hr, hlen, rfl⟩
      rcases List.mem_append.1 hr with h | h
      · rcases List.mem_append.1 h with h | h
        · rcases mem_ite_nil.1 h with ⟨hm, h⟩
          simp only [List.mem_singleton] at h
          subst h
          exact List.mem_append.2 (Or.inl (by rw [if_pos hm]; simp))
        · rcases List.mem_map.1 h with ⟨r', hr', rfl⟩
          have : r' ≠ [] := matchingPaths_ne_nil ext c r' hr'
          rcases r' with _ | ⟨y, r'⟩
          · exact absurd rfl this
          · simp at hlen
      · exact List.mem_append.2 (Or.inr ((ih q0 _).2 ⟨r, h, hlen, rfl⟩))

theorem mem_globStar (ext : String) (t : Entry) (q0 p : List String) :
    p ∈ globStar ext q0 t ↔
      ∃ r, r ∈ matchingPaths ext t ∧ r.length = 1 ∧ p = q0 ++ r := by
  cases t with
  | file n => simp [globStar, matchingPaths]
  | dir n a cs =>
    rw [globStar, matchingPaths]
    rcases a with _ | _
    · simp
    · simpa using mem_matchedChildren ext cs q0 p

theorem mem_rglob_both (ext : String) :
    (∀ t : Entry, ∀ q0 p : List String,
      p ∈ rglobStar ext q0 t ↔
        ∃ r, r ∈ matchingPaths ext t ∧ p = q0 ++ r) ∧
    (∀ cs : EntryList, ∀ q0 p : List String,
      p ∈ rglobList ext q0 cs ↔
        ∃ r, r ∈ matchingPathsList ext cs ∧ 2 ≤ r.length ∧ p = q0 ++ r) := by
  refine Entry.mutIndBoth ?_ ?_ ?_ ?_
  · intro n q0 p
    simp [rglobStar, matchingPaths]
  · intro n a cs ih q0 p
    rw [rglobStar, matchingPaths]
    rcases a with _ | _
    · simp
    · simp only [if_pos]
      constructor
      · intro hp
        rcases List.mem_append.1 hp with h | h
        · rcases (mem_matchedChildren ext cs q0 p).1 h with ⟨r, hr, _, rfl⟩
          exact ⟨r, hr, rfl⟩
        · rcases (ih q0 p).1 h with ⟨r, hr, _, rfl⟩
          exact ⟨r, hr, rfl⟩
      · rintro ⟨r, hr, rfl⟩
        have hne : r ≠ [] := matchingPathsList_ne_nil ext cs r hr
        have hlen : 1 ≤ r.length := List.length_pos.2 hne
        rcases Nat.eq_or_lt_of_le hlen with h1 | h2
        · exact List.mem_append.2
            (Or.inl ((mem_matchedChildren ext cs q0 _).2 ⟨r, hr, h1.symm, rfl⟩))
        · exact List.mem_append.2 (Or.inr ((ih q0 _).2 ⟨r, hr, h2, rfl⟩))
  · intro q0 p
    simp [rglobList, matchingPathsList]
  · intro c cs ihc ihcs q0 p
    rw [rglobList, matchingPathsList]
    constructor
    · intro hp
      rcases List.mem_append.1 hp with h | h
      · rcases (ihc (q0 ++ [c.name]) p).1 h with ⟨r', hr', rfl⟩
        have hne : r' ≠ [] := matchingPaths_ne_nil ext c r' hr'
        refine ⟨c.name :: r', ?_, ?_, by simp⟩
        · exact List.mem_append.2
            (Or.inl (List.mem_append.2 (Or.inr (List.mem_map.2 ⟨r', hr', rfl⟩))))
        · have : 1 ≤ r'.length := List.length_pos.2 hne
          simp
          omega
      · rcases (ihcs q0 p).1 h with ⟨r, hr, hlen, rfl⟩
        exact ⟨r, List.mem_append.2 (Or.inr hr), hlen, rfl⟩
    · rintro ⟨r, hr, hlen, rfl⟩
      rcases List.mem_append.1 hr with h | h
      · rcases List.mem_append.1 h with h | h
        · rcases mem_ite_nil.1 h with ⟨_, h⟩
          simp only [List.mem_singleton] at h
          subst h
          simp at hlen
        · rcases List.mem_map.1 h with ⟨r', hr', rfl⟩
          refine List.mem_append.2 (Or.inl ((ihc (q0 ++ [c.name]) _).2 ⟨r', hr', ?_⟩))
          simp
      · exact List.mem_append.2 (Or.inr ((ihcs q0 _).2 ⟨r, h, hlen, rfl⟩))

theorem mem_collect_both (ext : String) (maxD : Int) :
    (∀ t : Entry, ∀ q0 p : List String, ∀ curD : Int,
      p ∈ collect_files ext maxD q0 curD t ↔
        ∃ r, r ∈ matchingPaths ext t ∧
          (r.length = 1 ∨ (curD + r.length : Int) ≤ maxD + 1) ∧ p = q0 ++ r) ∧
    (∀ cs : EntryList, ∀ q0 p : List String, ∀ curD : Int,
      p ∈ collectList ext maxD q0 curD cs ↔
        ∃ r, r ∈ matchingPathsList ext cs ∧ 2 ≤ r.length ∧
          (r.length = 2 ∨ (curD + r.length : Int) ≤ maxD + 1) ∧ p = q0 ++ r) := by
  refine Entry.mutIndBoth ?_ ?_ ?_ ?_
  · intro n q0 p curD
    simp [collect_files, matchingPaths]
  · intro n a cs ih q0 p curD
    rw [collect_files, matchingPaths]
    rcases a with _ | _
    · simp
    · simp only [if_pos]
      constructor
      · intro hp
        rcases List.mem_append.1 hp with h | h
        · rcases (mem_matchedChildren ext cs q0 p).1 h with ⟨r, hr, hlen, rfl⟩
          exact ⟨r, hr, Or.inl hlen, rfl⟩
        · rcases mem_ite_nil.1 h with ⟨hguard, h⟩
          rcases (ih q0 p curD).1 h with ⟨r, hr, hlen2, hcond, rfl⟩
          refine ⟨r, hr, Or.inr ?_, rfl⟩
          omega
      · rintro ⟨r, hr, hcond, rfl⟩
        have hne : r ≠ [] := matchingPathsList_ne_nil ext cs r hr
        have hlen : 1 ≤ r.length := List.length_pos.2 hne
        rcases Nat.eq_or_lt_of_le hlen with h1 | h2
        · exact List.mem_append.2
            (Or.inl ((mem_matchedChildren ext cs q0 _).2 ⟨r, hr, h1.symm, rfl⟩))
        · have hc : (curD + r.length : Int) ≤ maxD + 1 := by omega
          have hguard : curD < maxD := by omega
          refine List.mem_append.2 (Or.inr (mem_ite_nil.2 ⟨hguard, ?_⟩))
          exact (ih q0 _ curD).2 ⟨r, hr, h2, Or.inr hc, rfl⟩
  · intro q0 p curD
    simp [collectList, matchingPathsList]
  · intro c cs ihc ihcs q0 p curD
    rw [collectList, matchingPathsList]
    constructor
    · intro hp
      rcases List.mem_append.1 hp with h | h
      · rcases mem_ite_nil.1 h with ⟨_, h⟩
        rcases (ihc (q0 ++ [c.name]) p (curD + 1)).1 h with ⟨r', hr', hcond, rfl⟩
        have hne : r' ≠ [] := matchingPaths_ne_nil ext c r' hr'
        have hlen : 1 ≤ r'.length := List.length_pos.2 hne
        refine ⟨c.name :: r', ?_, ?_, ?_, by simp⟩
        · exact List.mem_append.2
            (Or.inl (List.mem_append.2 (Or.inr (List.mem_map.2 ⟨r', hr', rfl⟩))))
        · simp; omega
        · simp only [List.length_cons]
          omega
      · rcases (ihcs q0 p curD).1 h with ⟨r, hr, hlen2, hcond, rfl⟩
        exact ⟨r, List.mem_append.2 (Or.inr hr), hlen2, hcond, rfl⟩
    · rintro ⟨r, hr, hlen2, hcond, rfl⟩
      rcases List.mem_append.1 hr with h | h
      · rcases List.mem_append.1 h with h | h
        · rcases mem_ite_nil.1 h with ⟨_, h⟩
          simp only [List.mem_singleton] at h
          subst h
          simp at hlen2
        · rcases List.mem_map.1 h with ⟨r', hr', rfl⟩
          have hdir : c.isDir = true := by
            cases c with
            | file n => simp [matchingPaths] at hr'
            | dir n a cs2 => rfl
          refine List.mem_append.2 (Or.inl (mem_ite_nil.2 ⟨by simp [hdir], ?_⟩))
          refine (ihc (q0 ++ [c.name]) _ (curD + 1)).2 ⟨r', hr', ?_, by simp⟩
          simp only [List.length_cons] at hcond
          omega
      · exact List.mem_append.2 (Or.inr ((ihcs q0 _ curD).2 ⟨r, h, hlen2, hcond, rfl⟩))

theorem mem_get_files_by_extension (t : Entry) (ext : String) (d : Int)
    (p : List String) :
    p ∈ get_files_by_extension t ext d ↔
      p ∈ matchingPaths ext t ∧ depthOK d p = true := by
  rw [get_files_by_extension, depthOK]
  by_cases h0 : d = 0
  · subst h0
    rw [if_pos rfl, if_pos rfl, mem_globStar]
    constructor
    · rintro ⟨r, hr, hlen, rfl⟩
      exact ⟨hr, by simp [hlen]⟩
    · rintro ⟨hp, hd⟩
      rw [beq_iff_eq] at hd
      exact ⟨p, hp, hd, (List.nil_append p).symm⟩
  · rw [if_neg h0, if_neg h0]
    by_cases h1 : d = -1
    · subst h1
      rw [if_pos rfl, if_pos rfl, (mem_rglob_both ext).1]
      constructor
      · rintro ⟨r, hr, rfl⟩
        exact ⟨hr, rfl⟩
      · rintro ⟨hp, _⟩
        exact ⟨p, hp, (List.nil_append p).symm⟩
    · rw [if_neg h1, if_neg h1, (mem_collect_both ext d).1]
      constructor
      · rintro ⟨r, hr, hcond, rfl⟩
        refine ⟨hr, ?_⟩
        rcases hcond with h | h
        · simp [h]
        · simp only [Bool.or_eq_true, beq_iff_eq, decide_eq_true_eq]
          right
          omega
      · rintro ⟨hp, hd⟩
        simp only [Bool.or_eq_true, beq_iff_eq, decide_eq_true_eq] at hd
        refine ⟨p, hp, ?_, (List.nil_append p).symm⟩
        rcases hd with h | h
        · exact Or.inl h
        · right
          omega

theorem process_found_of_valid (w : World) (ext : String) (d : Int)
    (he : w.rootExists = true) (hd : w.rootIsDir = true)
    (hk : KNOWN_EXTENSIONS.contains (pyLower ext) = true) :
    (process_and_print_files w ext d).found =
      get_files_by_extension w.tree ext d := by
  rw [process_and_print_files, he, hd, hk]
  simp

/-- C3: in every depth mode, a directory whose listing fails is silently
skipped: a path appears in the scan result only if every directory on the
way to it (the root included) is accessible, and conversely every
reachable matching path allowed by the depth mode is included, so
inaccessible siblings never suppress accessible ones and contribute no
partial results. -/
theorem c3_inaccessible_dirs_skipped (t : Entry) (ext : String) (d : Int)
    (p : List String) :
    (p ∈ get_files_by_extension t ext d → p ∈ accessiblePaths t) ∧
    (p ∈ accessiblePaths t → matchesPattern ext (lastName p) = true →
      depthOK d p = true → p ∈ get_files_by_extension t ext d) := by
  constructor
  · intro hp
    exact ((mem_matchingPaths ext t p).1
      ((mem_get_files_by_extension t ext d p).1 hp).1).1
  · intro hacc hm hd
    exact (mem_get_files_by_extension t ext d p).2
      ⟨(mem_matchingPaths ext t p).2 ⟨hacc, hm⟩, hd⟩

/-- Witness for C3: in the tree root/ok/match.txt plus an inaccessible
root/denied/secret.txt, the accessible sibling's match is still found. -/
theorem c3_inaccessible_dirs_skipped_witness :
    ["ok", "match.txt"] ∈
      get_files_by_extension
        (Entry.dir "root" true (elist
          [Entry.dir "ok" true (elist [Entry.file "match.txt"]),
           Entry.dir "denied" false (elist [Entry.file "secret.txt"])]))
        ".txt" (-1) :=
  (c3_inaccessible_dirs_skipped
    (Entry.dir "root" true (elist
      [Entry.dir "ok" true (elist [Entry.file "match.txt"]),
       Entry.dir "denied" false (elist [Entry.file "secret.txt"])]))
    ".txt" (-1) ["ok", "match.txt"]).2 (by decide) (by decide) (by decide)

/-- C9: matching is decided by the entry name alone: a reachable
directory entry whose name matches the pattern is included in the scan
result in whichever depth mode allows its depth; no is-file filter is
applied. -/
theorem c9_directories_are_matched (t : Entry) (ext : String) (d : Int)
    (p : List String) (hp : p ∈ accessibleDirPaths t)
    (hm : matchesPattern ext (lastName p) = true)
    (hd : depthOK d p = true) :
    p ∈ get_files_by_extension t ext d :=
  (mem_get_files_by_extension t ext d p).2
    ⟨(mem_matchingPaths ext t p).2
      ⟨accessibleDirPaths_subset_both.1 t p hp, hm⟩, hd⟩

/-- Witness for C9: a subdirectory named notes.txt is reported by a
bounded-depth scan for .txt even though it is a directory. -/
theorem c9_directories_are_matched_witness :
    ["notes.txt"] ∈
      get_files_by_extension
        (Entry.dir "root" true (elist [Entry.dir "notes.txt" true (elist [])]))
        ".txt" 2 :=
  c9_directories_are_matched
    (Entry.dir "root" true (elist [Entry.dir "notes.txt" true (elist [])]))
    ".txt" 2 ["notes.txt"] (by decide) (by decide) (by decide)

/-- C10: a depth strictly below -1 takes the bounded-depth branch, whose
recursion guard is already false at the root, so the scan returns exactly
the depth-0 result and lists no directory beyond the root. -/
theorem c10_below_minus_one_is_depth_zero (t : Entry) (ext : String)
    (d : Int) (hd : d < -1) :
    get_files_by_extension t ext d = get_files_by_extension t ext 0 ∧
    (t.isDir = true → listedDirs t d = listedDirs t 0) := by
  have h0 : d ≠ 0 := by omega
  have h1 : d ≠ -1 := by omega
  constructor
  · rw [get_files_by_extension, if_neg h0, if_neg h1,
      get_files_by_extension, if_pos rfl]
    cases t with
    | file n => rw [collect_files, globStar]
    | dir n a cs =>
      rw [collect_files, globStar]
      rw [if_neg (show ¬((0 : Int) < d) by omega)]
      rcases a with _ | _ <;> simp
  · intro hdir
    rw [listedDirs, if_neg h0, if_neg h1, listedDirs, if_pos rfl]
    cases t with
    | file n => simp [Entry.isDir] at hdir
    | dir n a cs =>
      rw [visitedDirs]
      rw [if_neg (show ¬(a = true ∧ (0 : Int) < d) from fun hc => by omega)]

/-- Witness for C10: scanning with depth -2 equals scanning with depth 0
on a tree that does contain a deeper match, and the same single directory
is listed. -/
theorem c10_below_minus_one_is_depth_zero_witness :
    get_files_by_extension
        (Entry.dir "root" true (elist
          [Entry.file "a.txt",
           Entry.dir "sub" true (elist [Entry.file "b.txt"])]))
        ".txt" (-2) =
      get_files_by_extension
        (Entry.dir "root" true (elist
          [Entry.file "a.txt",
           Entry.dir "sub" true (elist [Entry.file "b.txt"])]))
        ".txt" 0 ∧
    listedDirs
        (Entry.dir "root" true (elist
          [Entry.file "a.txt",
           Entry.dir "sub" true (elist [Entry.file "b.txt"])]))
        (-2) =
      listedDirs
        (Entry.dir "root" true (elist
          [Entry.file "a.txt",
           Entry.dir "sub" true (elist [Entry.file "b.txt"])]))
        0 :=
  ⟨(c10_below_minus_one_is_depth_zero
      (Entry.dir "root" true (elist
        [Entry.file "a.txt",
         Entry.dir "sub" true (elist [Entry.file "b.txt"])]))
      ".txt" (-2) (by decide)).1,
   (c10_below_minus_one_is_depth_zero
      (Entry.dir "root" true (elist
        [Entry.file "a.txt",
         Entry.dir "sub" true (elist [Entry.file "b.txt"])]))
      ".txt" (-2) (by decide)).2 (by decide)⟩

/-- C1: for a valid root, recognized extension, depth N > 0 and a fully
accessible tree, an entry of the tree is in the scan result exactly when
its name has the extension as a case-sensitive suffix and its nesting
depth D (path length minus one, the root being depth 0) satisfies D at
most N; in particular an entry at depth N + 1 is excluded. -/
theorem c1_bounded_depth_iff (w : World) (ext : String) (N : Int)
    (he : w.rootExists = true) (hd : w.rootIsDir = true)
    (hk : KNOWN_EXTENSIONS.contains (pyLower ext) = true)
    (hN : 0 < N) (hall : allAccessible w.tree = true)
    (p : List String) (hp : p ∈ entryPaths w.tree) :
    p ∈ (process_and_print_files w ext N).found ↔
      matchesPattern ext (lastName p) = true ∧ (p.length : Int) - 1 ≤ N := by
  rw [process_found_of_valid w ext N he hd hk, mem_get_files_by_extension,
    mem_matchingPaths, accessible_eq_entry_both.1 w.tree hall]
  have hne : p ≠ [] := entryPaths_ne_nil w.tree p hp
  have hlen : 1 ≤ p.length := List.length_pos.2 hne
  constructor
  · rintro ⟨⟨_, hm⟩, hdp⟩
    refine ⟨hm, ?_⟩
    rw [depthOK, if_neg (by omega), if_neg (by omega)] at hdp
    simp only [Bool.or_eq_true, beq_iff_eq, decide_eq_true_eq] at hdp
    omega
  · rintro ⟨hm, hdep⟩
    refine ⟨⟨hp, hm⟩, ?_⟩
    rw [depthOK, if_neg (by omega), if_neg (by omega)]
    simp only [Bool.or_eq_true, beq_iff_eq, decide_eq_true_eq]
    omega

/-- Witness for C1: with depth 1, the entry root/sub/b.txt (nesting depth
1) is included, by the characterization. -/
theorem c1_bounded_depth_iff_witness :
    ["sub", "b.txt"] ∈
      (process_and_print_files
        ⟨true, true,
          Entry.dir "root" true (elist
            [Entry.file "a.txt",
             Entry.dir "sub" true (elist
               [Entry.file "b.txt",
                Entry.dir "deep" true (elist [Entry.file "c.txt"])])])⟩
        ".txt" 1).found :=
  (c1_bounded_depth_iff
    ⟨true, true,
      Entry.dir "root" true (elist
        [Entry.file "a.txt",
         Entry.dir "sub" true (elist
           [Entry.file "b.txt",
            Entry.dir "deep" true (elist [Entry.file "c.txt"])])])⟩
    ".txt" 1 rfl rfl (by decide) (by decide) (by decide)
    ["sub", "b.txt"] (by decide)).2 ⟨by decide, by decide⟩

/-- C5: for a valid root, recognized extension, depth -1 and a fully
accessible tree, an entry of the tree is in the scan result exactly when
its name matches, at any nesting depth. -/
theorem c5_unlimited_recursion_iff (w : World) (ext : String)
    (he : w.rootExists = true) (hd : w.rootIsDir = true)
    (hk : KNOWN_EXTENSIONS.contains (pyLower ext) = true)
    (hall : allAccessible w.tree = true)
    (p : List String) (hp : p ∈ entryPaths w.tree) :
    p ∈ (process_and_print_files w ext (-1)).found ↔
      matchesPattern ext (lastName p) = true := by
  rw [process_found_of_valid w ext (-1) he hd hk, mem_get_files_by_extension,
    mem_matchingPaths, accessible_eq_entry_both.1 w.tree hall]
  rw [depthOK, if_neg (by omega), if_pos rfl]
  constructor
  · rintro ⟨⟨_, hm⟩, _⟩
    exact hm
  · intro hm
    exact ⟨⟨hp, hm⟩, rfl⟩

/-- Witness for C5: a match three levels down is included at depth -1. -/
theorem c5_unlimited_recursion_iff_witness :
    ["a", "b", "c.txt"] ∈
      (process_and_print_files
        ⟨true, true,
          Entry.dir "root" true (elist
            [Entry.dir "a" true (elist
              [Entry.dir "b" true (elist [Entry.file "c.txt"])])])⟩
        ".txt" (-1)).found :=
  (c5_unlimited_recursion_iff
    ⟨true, true,
      Entry.dir "root" true (elist
        [Entry.dir "a" true (elist
          [Entry.dir "b" true (elist [Entry.file "c.txt"])])])⟩
    ".txt" rfl rfl (by decide) (by decide)
    ["a", "b", "c.txt"] (by decide)).2 (by decide)

/-- C4: for a valid root with listable root directory and a recognized
extension, the depth-0 scan contains only length-one paths (direct
children, never anything inside a subdirectory), and an entry of the tree
is in the result exactly when it is a direct child whose name matches. -/
theorem c4_depth_zero_direct_children (w : World) (ext : String)
    (he : w.rootExists = true) (hd : w.rootIsDir = true)
    (hk : KNOWN_EXTENSIONS.contains (pyLower ext) = true)
    (hacc : w.tree.rootAccessible = true) :
    (∀ p ∈ (process_and_print_files w ext 0).found, p.length = 1) ∧
    (∀ p, p ∈ entryPaths w.tree →
      (p ∈ (process_and_print_files w ext 0).found ↔
        p.length = 1 ∧ matchesPattern ext (lastName p) = true)) := by
  rw [process_found_of_valid w ext 0 he hd hk]
  constructor
  · intro p hp
    have := ((mem_get_files_by_extension w.tree ext 0 p).1 hp).2
    rw [depthOK, if_pos rfl] at this
    exact beq_iff_eq.1 this
  · intro p hp
    constructor
    · intro hmem
      obtain ⟨hmp, hdp⟩ := (mem_get_files_by_extension w.tree ext 0 p).1 hmem
      rw [depthOK, if_pos rfl] at hdp
      exact ⟨beq_iff_eq.1 hdp, ((mem_matchingPaths ext w.tree p).1 hmp).2⟩
    · rintro ⟨hl, hm⟩
      rcases p with _ | ⟨x, p⟩
      · simp at hl
      · rcases p with _ | ⟨y, p⟩
        · refine (mem_get_files_by_extension w.tree ext 0 [x]).2 ⟨?_, by simp [depthOK]⟩
          cases htree : w.tree with
          | file n =>
            rw [htree] at hacc
            simp [Entry.rootAccessible] at hacc
          | dir n a cs =>
            rw [htree] at hacc
            rw [Entry.rootAccessible] at hacc
            rw [htree] at hp
            rw [entryPaths] at hp
            rw [matchingPaths, if_pos hacc]
            rw [lastName_singleton] at hm
            exact (singleton_matching_iff ext cs x).2 ⟨hp, hm⟩
        · simp at hl

/-- Witness for C4: a depth-0 scan of a root whose subdirectory also
holds a match reports only the direct child. -/
theorem c4_depth_zero_direct_children_witness :
    (["a.txt"] ∈
      (process_and_print_files
        ⟨true, true,
          Entry.dir "root" true (elist
            [Entry.file "a.txt",
             Entry.dir "sub" true (elist [Entry.file "b.txt"])])⟩
        ".txt" 0).found) ∧
    ¬(["sub", "b.txt"] ∈
      (process_and_print_files
        ⟨true, true,
          Entry.dir "root" true (elist
            [Entry.file "a.txt",
             Entry.dir "sub" true (elist [Entry.file "b.txt"])])⟩
        ".txt" 0).found) :=
  ⟨((c4_depth_zero_direct_children
      ⟨true, true,
        Entry.dir "root" true (elist
          [Entry.file "a.txt",
           Entry.dir "sub" true (elist [Entry.file "b.txt"])])⟩
      ".txt" rfl rfl (by decide) (by decide)).2 ["a.txt"] (by decide)).2
        ⟨by decide, by decide⟩,
   fun hmem =>
     by simpa using (c4_depth_zero_direct_children
      ⟨true, true,
        Entry.dir "root" true (elist
          [Entry.file "a.txt",
           Entry.dir "sub" true (elist [Entry.file "b.txt"])])⟩
      ".txt" rfl rfl (by decide) (by decide)).1 ["sub", "b.txt"] hmem⟩

/-- C6: an invalid root (missing, or present but not a directory) yields
an empty result and exactly one diagnostic, and the two conditions are
reported by distinct diagnostics; no exception reaches the caller (the
call is a total function into its result type). -/
theorem c6_invalid_root_diagnostics (w : World) (ext : String) (d : Int)
    (h : w.rootExists = false ∨ w.rootIsDir = false) :
    (process_and_print_files w ext d).found = [] ∧
    ((w.rootExists = false ∧
        (process_and_print_files w ext d).outputs = [Msg.dirNotExist]) ∨
     (w.rootExists = true ∧ w.rootIsDir = false ∧
        (process_and_print_files w ext d).outputs = [Msg.notADir])) ∧
    Msg.dirNotExist ≠ Msg.notADir := by
  cases hE : w.rootExists with
  | false =>
    rw [process_and_print_files, hE]
    refine ⟨by simp, Or.inl ⟨rfl, by simp⟩, by simp⟩
  | true =>
    have hD : w.rootIsDir = false := by
      rcases h with h | h
      · rw [hE] at h
        exact absurd h (by simp)
      · exact h
    rw [process_and_print_files, hE, hD]
    refine ⟨by simp, Or.inr ⟨rfl, rfl, by simp⟩, by simp⟩

/-- Witness for C6: a missing root produces the does-not-exist diagnostic
and an empty result. -/
theorem c6_invalid_root_diagnostics_witness :
    (process_and_print_files
        ⟨false, true, Entry.dir "root" true (elist [Entry.file "a.txt"])⟩
        ".txt" 0).found = [] ∧
    ((false = false ∧
        (process_and_print_files
          ⟨false, true, Entry.dir "root" true (elist [Entry.file "a.txt"])⟩
          ".txt" 0).outputs = [Msg.dirNotExist]) ∨
     (false = true ∧ true = false ∧
        (process_and_print_files
          ⟨false, true, Entry.dir "root" true (elist [Entry.file "a.txt"])⟩
          ".txt" 0).outputs = [Msg.notADir])) ∧
    Msg.dirNotExist ≠ Msg.notADir :=
  c6_invalid_root_diagnostics
    ⟨false, true, Entry.dir "root" true (elist [Entry.file "a.txt"])⟩
    ".txt" 0 (Or.inl rfl)

/-- Counterexample to C2 as stated: with an unknown extension the code
still touches the filesystem, because the path-validation decorator is
outermost: with a valid root it performs the existence and is-directory
checks before the extension check, and with a missing root it reports the
directory diagnostic and never emits the Unknown Extension warning. -/
theorem c2_counterexample :
    (process_and_print_files
        ⟨true, true, Entry.dir "r" true (elist [])⟩ ".xyz" 0).accesses ≠ [] ∧
    Msg.unknownExt ".xyz" ∉
      (process_and_print_files
        ⟨false, true, Entry.dir "r" true (elist [])⟩ ".xyz" 0).outputs := by
  refine ⟨?_, ?_⟩ <;> decide

/-- C2 as amended: for an unrecognized extension and a root that exists
and is a directory, the scan reports the Unknown Extension warning,
returns an empty result, and performs no directory listing at all; the
only filesystem accesses are the existence and is-directory checks made
by the outer path-validation decorator. -/
theorem c2_amended_unknown_extension (w : World) (ext : String) (d : Int)
    (he : w.rootExists = true) (hd : w.rootIsDir = true)
    (hu : KNOWN_EXTENSIONS.contains (pyLower ext) = false) :
    (process_and_print_files w ext d).outputs = [Msg.unknownExt ext] ∧
    (process_and_print_files w ext d).found = [] ∧
    (process_and_print_files w ext d).accesses =
      [FSAccess.existsCheck, FSAccess.isDirCheck] ∧
    ∀ q, FSAccess.listDir q ∉ (process_and_print_files w ext d).accesses := by
  rw [process_and_print_files, he, hd, hu]
  refine ⟨by simp, by simp, by simp, ?_⟩
  intro q
  simp

/-- Witness for C2's amended statement at a concrete unknown extension. -/
theorem c2_amended_unknown_extension_witness :
    (process_and_print_files
        ⟨true, true, Entry.dir "r" true (elist [Entry.file "x.xyz"])⟩
        ".xyz" (-1)).outputs = [Msg.unknownExt ".xyz"] ∧
    (process_and_print_files
        ⟨true, true, Entry.dir "r" true (elist [Entry.file "x.xyz"])⟩
        ".xyz" (-1)).accesses =
      [FSAccess.existsCheck, FSAccess.isDirCheck] :=
  ⟨(c2_amended_unknown_extension
      ⟨true, true, Entry.dir "r" true (elist [Entry.file "x.xyz"])⟩
      ".xyz" (-1) rfl rfl (by decide)).1,
   (c2_amended_unknown_extension
      ⟨true, true, Entry.dir "r" true (elist [Entry.file "x.xyz"])⟩
      ".xyz" (-1) rfl rfl (by decide)).2.2.1⟩

theorem rfindDot_append_some (a b : List Char) (i : Nat)
    (h : rfindDot b = some i) :
    rfindDot (a ++ b) = some (a.length + i) := by
  induction a with
  | nil => simpa using h
  | cons c a ih =>
    rw [List.cons_append, rfindDot, ih]
    simp
    omega

theorem rfindDot_eq_none (b : List Char) (h : '.' ∉ b) : rfindDot b = none := by
  induction b with
  | nil => rfl
  | cons c b ih =>
    rw [rfindDot, ih (fun hb => h (List.mem_cons_of_mem _ hb))]
    have hc : ¬(c = '.') := fun hc => h (by rw [hc]; exact List.mem_cons_self _ _)
    rw [if_neg hc]

theorem pyStem_eq_stripExt (name ext : String) (rest : List Char)
    (hext : ext.data = '.' :: rest) (hrest : rest ≠ []) (hdot : '.' ∉ rest)
    (hm : matchesPattern ext name = true)
    (hlt : ext.data.length < name.data.length) :
    pyStem name = stripExt name ext := by
  have hsuf : ext.data <:+ name.data := by
    rw [matchesPattern] at hm
    exact List.isSuffixOf_iff_suffix.1 hm
  obtain ⟨v, hv⟩ := hsuf
  have hvne : v ≠ [] := by
    intro hnil
    rw [hnil, List.nil_append] at hv
    rw [hv] at hlt
    omega
  have h1 : rfindDot ext.data = some 0 := by
    rw [hext, rfindDot, rfindDot_eq_none rest hdot, if_pos rfl]
  have h2 : rfindDot name.data = some v.length := by
    rw [← hv]
    simpa using rfindDot_append_some v ext.data 0 h1
  have hlenname : name.data.length = v.length + 1 + rest.length := by
    rw [← hv, List.length_append, hext]
    simp
    omega
  have hvpos : 0 < v.length := List.length_pos.2 hvne
  have hrpos : 0 < rest.length := List.length_pos.2 hrest
  rw [pyStem, h2]
  dsimp only
  rw [if_pos (by constructor <;> omega)]
  rw [stripExt]
  have hextlen : ext.data.length = rest.length + 1 := by
    rw [hext]
    simp
  have hidx : name.data.length - ext.data.length = v.length := by omega
  rw [hidx]

/-- Counterexample to C7 as stated: a hidden file whose entire name is
the extension, such as .txt, is matched by the glob pattern, and pathlib
keeps its full name as the stem, whereas removing the matched extension
suffix would leave the empty string. -/
theorem c7_counterexample :
    (process_and_print_files
        ⟨true, true, Entry.dir "r" true (elist [Entry.file ".txt"])⟩
        ".txt" 0).outputs = [Msg.report [".txt"] [".txt"]] ∧
    stripExt ".txt" ".txt" = "" ∧ (".txt" : String) ≠ "" := by
  refine ⟨?_, ?_, ?_⟩ <;> decide

/-- C7 as amended: each reported stem is the pathlib stem of the reported
name, a pure string transform; and whenever the matched name strictly
extends the extension (a single-dot extension, as all allow-listed ones
are), the pathlib stem coincides with the name with the matched extension
suffix removed.  Only a match whose whole name equals the extension keeps
its full name as its stem. -/
theorem c7_amended_stems (w : World) (ext : String) (d : Int)
    (he : w.rootExists = true) (hd : w.rootIsDir = true)
    (hk : KNOWN_EXTENSIONS.contains (pyLower ext) = true) :
    (process_and_print_files w ext d).outputs =
      [Msg.report ((get_files_by_extension w.tree ext d).map lastName)
        (((get_files_by_extension w.tree ext d).map lastName).map pyStem)] ∧
    (∀ (name : String) (rest : List Char),
      ext.data = '.' :: rest → rest ≠ [] → '.' ∉ rest →
      matchesPattern ext name = true → ext.data.length < name.data.length →
      pyStem name = stripExt name ext) := by
  constructor
  · rw [process_and_print_files, he, hd, hk]
    simp
  · intro name rest h1 h2 h3 h4 h5
    exact pyStem_eq_stripExt name ext rest h1 h2 h3 h4 h5

/-- Witness for C7's amended statement: the concrete report of a scan,
and the stem of a.txt computed both ways. -/
theorem c7_amended_stems_witness :
    (process_and_print_files
        ⟨true, true, Entry.dir "r" true (elist [Entry.file "a.txt"])⟩
        ".txt" 0).outputs =
      [Msg.report
        ((get_files_by_extension
            (Entry.dir "r" true (elist [Entry.file "a.txt"])) ".txt" 0).map
          lastName)
        (((get_files_by_extension
            (Entry.dir "r" true (elist [Entry.file "a.txt"])) ".txt" 0).map
          lastName).map pyStem)] ∧
    pyStem "a.txt" = stripExt "a.txt" ".txt" :=
  ⟨(c7_amended_stems
      ⟨true, true, Entry.dir "r" true (elist [Entry.file "a.txt"])⟩
      ".txt" 0 rfl rfl (by decide)).1,
   (c7_amended_stems
      ⟨true, true, Entry.dir "r" true (elist [Entry.file "a.txt"])⟩
      ".txt" 0 rfl rfl (by decide)).2 "a.txt" ['t', 'x', 't']
      (by decide) (by decide) (by decide) (by decide) (by decide)⟩

theorem takeWhile_dropWhile_split {α : Type} (p : α → Bool) (as : List α)
    (b : α) (bs : List α) (has : ∀ a ∈ as, p a = true) (hb : p b = false) :
    (as ++ b :: bs).takeWhile p = as ∧ (as ++ b :: bs).dropWhile p = b :: bs := by
  induction as with
  | nil => simp [List.takeWhile_cons, List.dropWhile_cons, hb]
  | cons a as ih =>
    have ha : p a = true := has a (List.mem_cons_self _ _)
    have ih2 := ih (fun x hx => has x (List.mem_cons_of_mem _ hx))
    simp [List.takeWhile_cons, List.dropWhile_cons, ha, ih2.1, ih2.2]

theorem isFloatShape_iff (cs : List Char) :
    isFloatShape cs = true ↔
      ∃ as bs, cs = as ++ '.' :: bs ∧ as ≠ [] ∧
        (∀ c ∈ as, c.isDigit = true) ∧ (∀ c ∈ bs, c.isDigit = true) := by
  constructor
  · intro h
    rw [isFloatShape, Bool.and_eq_true, decide_eq_true_eq] at h
    obtain ⟨hne, hrest⟩ := h
    rcases hd : cs.dropWhile Char.isDigit with _ | ⟨b, bs⟩
    · rw [hd] at hrest
      simp at hrest
    · rw [hd] at hrest
      simp only [Bool.and_eq_true, beq_iff_eq] at hrest
      obtain ⟨hbdot, hball⟩ := hrest
      subst hbdot
      refine ⟨cs.takeWhile Char.isDigit, bs, ?_, hne, ?_, ?_⟩
      · rw [← hd, List.takeWhile_append_dropWhile]
      · intro c hc
        exact List.mem_takeWhile_imp hc
      · exact fun c hc => List.all_eq_true.1 hball c hc
  · rintro ⟨as, bs, rfl, hne, has, hbs⟩
    have hsplit := takeWhile_dropWhile_split Char.isDigit as '.' bs has (by decide)
    rw [isFloatShape, hsplit.1, hsplit.2, Bool.and_eq_true, decide_eq_true_eq]
    refine ⟨hne, ?_⟩
    simp only [Bool.and_eq_true, beq_iff_eq, beq_self_eq_true, true_and]
    exact List.all_eq_true.2 hbs

/-- Counterexample to C8 as stated: the value 3. (a digit, a dot, and an
empty fraction) is not a digit-dot-digit string, yet the converter
returns a float for it rather than the original string; and a value with
surrounding whitespace comes back stripped, not as the original string. -/
theorem c8_counterexample :
    infer_type "3." = JsonVal.float "3." ∧
    JsonVal.float "3." ≠ JsonVal.str "3." ∧
    infer_type " a " = JsonVal.str "a" ∧
    JsonVal.str "a" ≠ JsonVal.str " a " := by
  refine ⟨?_, ?_, ?_, ?_⟩ <;> decide

/-- C8 as amended: after stripping surrounding whitespace, the converter
returns True for the words true, yes, on and False for false, no, off
(case-insensitively); an integer for a nonempty all-digit value; a float
for one or more digits, a dot, and zero or more digits (the fraction may
be empty); and otherwise the stripped value as a string. -/
theorem c8_amended_infer_type (val : String) :
    (pyLower (pyStrip val) ∈ (["true", "yes", "on"] : List String) →
      infer_type val = JsonVal.bool true) ∧
    (pyLower (pyStrip val) ∈ (["false", "no", "off"] : List String) →
      infer_type val = JsonVal.bool false) ∧
    (pyLower (pyStrip val) ∉
        (["true", "yes", "on", "false", "no", "off"] : List String) →
      (pyStrip val).data ≠ [] →
      (∀ c ∈ (pyStrip val).data, c.isDigit = true) →
      infer_type val = JsonVal.int (digitsToNat (pyStrip val).data)) ∧
    (pyLower (pyStrip val) ∉
        (["true", "yes", "on", "false", "no", "off"] : List String) →
      ¬((pyStrip val).data ≠ [] ∧ ∀ c ∈ (pyStrip val).data, c.isDigit = true) →
      (∃ as bs, (pyStrip val).data = as ++ '.' :: bs ∧ as ≠ [] ∧
        (∀ c ∈ as, c.isDigit = true) ∧ (∀ c ∈ bs, c.isDigit = true)) →
      infer_type val = JsonVal.float (pyStrip val)) ∧
    (pyLower (pyStrip val) ∉
        (["true", "yes", "on", "false", "no", "off"] : List String) →
      ¬((pyStrip val).data ≠ [] ∧ ∀ c ∈ (pyStrip val).data, c.isDigit = true) →
      ¬(∃ as bs, (pyStrip val).data = as ++ '.' :: bs ∧ as ≠ [] ∧
        (∀ c ∈ as, c.isDigit = true) ∧ (∀ c ∈ bs, c.isDigit = true)) →
      infer_type val = JsonVal.str (pyStrip val)) := by
  simp only [List.mem_cons, List.not_mem_nil, or_false, not_or] at *
  refine ⟨?_, ?_, ?_, ?_, ?_⟩
  · intro h
    rw [infer_type]
    rw [if_pos h]
  · intro h
    have hnot1 : ¬(pyLower (pyStrip val) = "true" ∨ pyLower (pyStrip val) = "yes" ∨
        pyLower (pyStrip val) = "on") := by
      rintro (h1 | h1 | h1) <;> rcases h with h2 | h2 | h2 <;> simp_all
    rw [infer_type, if_neg hnot1, if_pos h]
  · rintro ⟨h1, h2, h3, h4, h5, h6⟩ hne hdig
    rw [infer_type, if_neg (by tauto), if_neg (by tauto)]
    rw [if_pos ⟨hne, List.all_eq_true.2 hdig⟩]
  · rintro ⟨h1, h2, h3, h4, h5, h6⟩ hnotint hfl
    rw [infer_type, if_neg (by tauto), if_neg (by tauto)]
    rw [if_neg (by
      intro hc
      exact hnotint ⟨hc.1, List.all_eq_true.1 hc.2⟩)]
    rw [if_pos ((isFloatShape_iff (pyStrip val).data).2 hfl)]
  · rintro ⟨h1, h2, h3, h4, h5, h6⟩ hnotint hnotfl
    rw [infer_type, if_neg (by tauto), if_neg (by tauto)]
    rw [if_neg (by
      intro hc
      exact hnotint ⟨hc.1, List.all_eq_true.1 hc.2⟩)]
    rw [if_neg (fun hc => hnotfl ((isFloatShape_iff (pyStrip val).data).1 hc))]

/-- Witness for C8's amended statement at concrete values of each kind. -/
theorem c8_amended_infer_type_witness :
    infer_type " On " = JsonVal.bool true ∧
    infer_type "042" = JsonVal.int 42 ∧
    infer_type "3.5" = JsonVal.float "3.5" ∧
    infer_type "hello" = JsonVal.str "hello" :=
  ⟨(c8_amended_infer_type " On ").1 (by decide),
   (c8_amended_infer_type "042").2.2.1 (by decide) (by decide) (by decide),
   (c8_amended_infer_type "3.5").2.2.2.1 (by decide) (by decide)
     ⟨['3'], ['5'], by decide, by decide, by decide, by decide⟩,
   (c8_amended_infer_type "hello").2.2.2.2 (by decide) (by decide)
     (by
       intro hex
       have htrue := (isFloatShape_iff (pyStrip "hello").data).2 hex
       exact absurd htrue (by decide))⟩
